import Mathlib

/-!
Verification development for the Tutte polynomial computation engine
(tutte.cpp) and its memoization cache (tuttex/cache.hpp).

The engine is embedded as a fold over recursion shapes: each shape node
carries exactly the observations the engine makes of the current graph
(vertex count, loop count, multitree flag, canonical key, skeleton data,
selected-edge multiplicity), and the three reducers tutte, flow and
chromatic are translated statement by statement from tutte.cpp with the
program's default flags (reduce_multicycles and reduce_multiedges on,
reduce_lines and write_tree off, verbose status printing omitted).
Collaborators whose sources are not part of the analysed tree
(reduce_cycle, reduce_tree, graph_key, the hash function, the polynomial
serializer) appear as explicit parameters or as byte-level data.
-/

/-- Monomial c * x^a * y^b with a non-negative big-integer coefficient. -/
structure Mono where
  coeff : Nat
  xp : Nat
  yp : Nat
deriving DecidableEq, Repr

/-- Modelled from the spec: the factorised bivariate polynomial factor_poly
(poly/factor_poly.hpp is outside the analysed sources).  A polynomial is a
non-empty sequence of factor groups, each group a sum of monomials; the
value of the polynomial is the product of its groups.  The empty sequence
is the empty polynomial written P() in the engine. -/
abbrev FPoly : Type := List (List Mono)

/-- Empty polynomial P(). -/
def FPoly.zero : FPoly := []

/-- Constructor X(n): the literal x^n. -/
def polyX (n : Nat) : FPoly := [[⟨1, n, 0⟩]]

/-- Constructor Y(n): the literal y^n. -/
def polyY (n : Nat) : FPoly := [[⟨1, 0, n⟩]]

/-- Constructor Y(a,b): the range sum y^a + y^(a+1) + ... + y^b. -/
def polyYr (a b : Nat) : FPoly := [(List.range (b + 1 - a)).map (fun i => ⟨1, 0, a + i⟩)]

/-- Product of two monomials. -/
def mulMono (m n : Mono) : Mono := ⟨m.coeff * n.coeff, m.xp + n.xp, m.yp + n.yp⟩

/-- Product of two factor groups, fully distributed. -/
def mulGroup (g h : List Mono) : List Mono := (g.map (fun m => h.map (mulMono m))).flatten

/-- Insert a monomial into a group, merging coefficients of equal powers. -/
def insertMono (m : Mono) : List Mono → List Mono
  | [] => [m]
  | n :: rest =>
    if n.xp = m.xp ∧ n.yp = m.yp then ⟨n.coeff + m.coeff, n.xp, n.yp⟩ :: rest
    else n :: insertMono m rest

/-- Flatten a polynomial into its expanded single-group form. -/
def expandPoly : FPoly → List Mono
  | [] => []
  | g :: gs => gs.foldl mulGroup g

/-- Sum of polynomials: both operands are flattened and merged into a
single factor group. -/
def polyAdd (p q : FPoly) : FPoly :=
  [(expandPoly q).foldl (fun acc m => insertMono m acc) (expandPoly p)]

/-- Product of polynomials: lazy concatenation of the factor sequences. -/
def polyMul (p q : FPoly) : FPoly := p ++ q

/-- Modelled from the spec: the engine memo cache interface of simple_cache
(cache/simple_cache.hpp is outside the analysed sources).  Observable
content is an association from canonical key bytes to the stored
polynomial and the graph id under which it was stored; lookup returns the
most recently stored entry for a key, store pushes a new entry to the
front. -/
abbrev SCache : Type := List (List Nat × FPoly × Nat)

/-- Lookup of a key in the engine memo cache. -/
def scLookup (key : List Nat) (c : SCache) : Option (FPoly × Nat) :=
  match c.find? (fun e => e.1 == key) with
  | some e => some e.2
  | none => none

/-- Store of a polynomial under a key in the engine memo cache. -/
def scStore (key : List Nat) (p : FPoly) (id : Nat) (c : SCache) : SCache :=
  (key, p, id) :: c

/-- Global engine state threaded through the recursion: the memo cache,
the tree_id allocator and the progress counters of tutte.cpp. -/
structure EngSt where
  cache : SCache
  treeId : Nat
  numSteps : Nat
  numBicomps : Nat
  numDisbicomps : Nat
  numTrees : Nat
  numCycles : Nat
  hitSizes : Nat → Nat

/-- Increment of one cell of the cache_hit_sizes counter array (the array
is modelled as a total map so that the increment itself is observable). -/
def bumpHitSize (i : Nat) (st : EngSt) : EngSt :=
  { st with hitSizes := fun j => if j = i then st.hitSizes j + 1 else st.hitSizes j }

/-- Observations of the current graph made by a tutte or flow frame:
num_vertices, the reduce_loops result, is_multitree, and the canonical key
graph_key would produce (the canonicaliser is outside the analysed
sources, so the key bytes are data). -/
structure TView where
  numVerts : Nat
  loops : Nat
  isMultitree : Bool
  key : List Nat
deriving DecidableEq, Repr

/-- Observations of the remainder graph after biconnected components have
been extracted: an identity for the reduce_tree collaborator, the
multiplicities of the remaining skeleton edges, its is_multitree flag and
its num_edges. -/
structure SkelInfo where
  skelId : Nat
  skelMults : List Nat
  skelIsMultitree : Bool
  skelNumEdges : Nat
deriving DecidableEq, Repr

mutual
/-- Recursion shape of a tutte or flow computation: a node records which
structural branch of the reducer applies to the graph at that frame.  A
cyc node is a multicycle (closed form), a dec node is a non-biconnected
graph together with its extracted components, and a dc node is a
biconnected non-multicycle graph with the selected edge multiplicity
(edge.third) and the shapes after remove_edge and contract_edge. -/
inductive TShape where
  | cyc (v : TView) (gid : Nat) : TShape
  | dec (v : TView) (skel : SkelInfo) (comps : TShapes) : TShape
  | dc (v : TView) (k : Nat) (del con : TShape) : TShape

/-- List of component shapes of a dec node. -/
inductive TShapes where
  | nil : TShapes
  | cons (head : TShape) (tail : TShapes) : TShapes
end

/-- Frame view of a tutte or flow shape. -/
def TShape.view : TShape → TView
  | .cyc v _ => v
  | .dec v _ _ => v
  | .dc v _ _ _ => v

/-- Number of extracted components. -/
def TShapes.length : TShapes → Nat
  | .nil => 0
  | .cons _ t => 1 + t.length

/-- Whether the flow reducer hits the tree-kills-branch early return on
this shape: the graph is not biconnected and the remaining skeleton has an
edge of multiplicity one. -/
def flowKills : TShape → Bool
  | .dec _ skel _ => skel.skelMults.contains 1
  | _ => false

/-- Collaborators of the engine defined outside the analysed sources:
reduce_cycle and reduce_tree from reductions.hpp, taking the initial
polynomial and the identity of the graph they are applied to. -/
structure Collab where
  reduceCycle : FPoly → Nat → FPoly
  reduceTree : FPoly → Nat → FPoly

/-- Cache-probe condition of a tutte or flow frame: num_vertices at least
the small graph threshold and the graph is not a multitree. -/
def probeT (th : Nat) (v : TView) : Bool := decide (th ≤ v.numVerts) && !v.isMultitree

mutual
/-- Shallow embedding of the tutte reducer (tutte.cpp, function tutte,
lines 327-422).  Parameters: the collaborator bundle, the small graph
threshold, the cooperative timeout counter at frame entry.  gid data on
nodes names the graph object passed to the collaborator.  The operands of
the delete-contract sum are evaluated left to right. -/
def tutte (cb : Collab) (th : Nat) (tmo : Int) (g : TShape) (mid : Nat) (st : EngSt) :
    FPoly × EngSt :=
  if tmo ≤ 0 then (polyX 0, st) else
  let st1 := { st with numSteps := st.numSteps + 1 }
  let v := g.view
  let rf := polyY v.loops
  let kc := probeT th v
  match (if kc then scLookup v.key st1.cache else none) with
  | some (r, _) => (polyMul r rf, bumpHitSize (v.numVerts + 1) st1)
  | none =>
    let bd :=
      match g with
      | .cyc _ gid =>
        (cb.reduceCycle (polyX 1) gid, { st1 with numCycles := st1.numCycles + 1 })
      | .dec _ skel comps =>
        let tid := st1.treeId
        let stA := { st1 with treeId := st1.treeId + comps.length }
        let stB := if skel.skelIsMultitree then { stA with numTrees := stA.numTrees + 1 } else stA
        let stC := if 1 < comps.length then
            { stB with numDisbicomps := stB.numDisbicomps + 1 } else stB
        tutteComps cb th tmo comps tid (cb.reduceTree (polyX 1) skel.skelId) stC
      | .dc _ k del con =>
        let lid := st1.treeId
        let rid := st1.treeId + 1
        let stA := { st1 with treeId := st1.treeId + 2 }
        let rd := tutte cb th tmo del lid stA
        let rc := tutte cb th tmo con rid rd.2
        (if 1 < k then polyAdd rd.1 (polyMul rc.1 (polyYr 0 (k - 1)))
         else polyAdd rd.1 rc.1, rc.2)
    (polyMul bd.1 rf,
     if kc then { bd.2 with cache := scStore v.key bd.1 mid bd.2.cache } else bd.2)
termination_by structural g

/-- Loop over the extracted biconnected components of a tutte frame:
multicycle components are reduced in closed form, the others recursed on,
accumulating the product. -/
def tutteComps (cb : Collab) (th : Nat) (tmo : Int) (gs : TShapes) (tid : Nat)
    (acc : FPoly) (st : EngSt) : FPoly × EngSt :=
  match gs with
  | .nil => (acc, st)
  | .cons c rest =>
    let stA := { st with numBicomps := st.numBicomps + 1 }
    match c with
    | .cyc _ gid =>
      tutteComps cb th tmo rest tid (polyMul acc (cb.reduceCycle (polyX 1) gid))
        { stA with numCycles := stA.numCycles + 1 }
    | _ =>
      let r := tutte cb th tmo c tid stA
      tutteComps cb th tmo rest (tid + 1) (polyMul acc r.1) r.2
termination_by structural gs
end

mutual
/-- Shallow embedding of the flow reducer (tutte.cpp, function flow, lines
437-544).  Differs from tutte in the initial polynomial of the closed
forms, the cache-hit counter index, and the tree-kills-branch early return
that exits the frame with the empty polynomial before reduce_tree runs. -/
def flow (cb : Collab) (th : Nat) (tmo : Int) (g : TShape) (mid : Nat) (st : EngSt) :
    FPoly × EngSt :=
  if tmo ≤ 0 then (polyX 0, st) else
  let st1 := { st with numSteps := st.numSteps + 1 }
  let v := g.view
  let rf := polyY v.loops
  let kc := probeT th v
  match (if kc then scLookup v.key st1.cache else none) with
  | some (r, _) => (polyMul r rf, bumpHitSize v.numVerts st1)
  | none =>
    let finish := fun (bd : FPoly × EngSt) =>
      (polyMul bd.1 rf,
       if kc then { bd.2 with cache := scStore v.key bd.1 mid bd.2.cache } else bd.2)
    match g with
    | .cyc _ gid =>
      finish (cb.reduceCycle FPoly.zero gid, { st1 with numCycles := st1.numCycles + 1 })
    | .dec _ skel comps =>
      if skel.skelMults.contains 1 then
        (FPoly.zero, { st1 with numTrees := st1.numTrees + 1 })
      else
        let tid := st1.treeId
        let stA := { st1 with treeId := st1.treeId + comps.length }
        let stB := if skel.skelIsMultitree then { stA with numTrees := stA.numTrees + 1 } else stA
        let stC := if 1 < comps.length then
            { stB with numDisbicomps := stB.numDisbicomps + 1 } else stB
        finish (flowComps cb th tmo comps tid (cb.reduceTree FPoly.zero skel.skelId) stC)
    | .dc _ k del con =>
      let lid := st1.treeId
      let rid := st1.treeId + 1
      let stA := { st1 with treeId := st1.treeId + 2 }
      let rd := flow cb th tmo del lid stA
      let rc := flow cb th tmo con rid rd.2
      finish (if 1 < k then polyAdd rd.1 (polyMul rc.1 (polyYr 0 (k - 1)))
              else polyAdd rd.1 rc.1, rc.2)
termination_by structural g

/-- Loop over the extracted biconnected components of a flow frame. -/
def flowComps (cb : Collab) (th : Nat) (tmo : Int) (gs : TShapes) (tid : Nat)
    (acc : FPoly) (st : EngSt) : FPoly × EngSt :=
  match gs with
  | .nil => (acc, st)
  | .cons c rest =>
    let stA := { st with numBicomps := st.numBicomps + 1 }
    match c with
    | .cyc _ gid =>
      flowComps cb th tmo rest tid (polyMul acc (cb.reduceCycle FPoly.zero gid))
        { stA with numCycles := stA.numCycles + 1 }
    | _ =>
      let r := flow cb th tmo c tid stA
      flowComps cb th tmo rest (tid + 1) (polyMul acc r.1) r.2
termination_by structural gs
end

/-- Observations of the current graph made by a chromatic frame. -/
structure CView where
  numVerts : Nat
  key : List Nat
deriving DecidableEq, Repr

mutual
/-- Recursion shape of a chromatic computation: the chromatic reducer only
distinguishes non-biconnected graphs (dec) from biconnected ones (dc,
delete plus simple contract). -/
inductive CShape where
  | dec (v : CView) (skel : SkelInfo) (comps : CShapes) : CShape
  | dc (v : CView) (del con : CShape) : CShape

/-- List of component shapes of a chromatic dec node. -/
inductive CShapes where
  | nil : CShapes
  | cons (head : CShape) (tail : CShapes) : CShapes
end

/-- Frame view of a chromatic shape. -/
def CShape.view : CShape → CView
  | .dec v _ _ => v
  | .dc v _ _ => v

/-- Number of extracted components of a chromatic dec node. -/
def CShapes.length : CShapes → Nat
  | .nil => 0
  | .cons _ t => 1 + t.length

mutual
/-- Shallow embedding of the chromatic reducer (tutte.cpp, function
chromatic, lines 559-634).  No loop reduction, cache probe keyed only on
the vertex-count threshold, prefactor X(num_edges) for the skeleton, and
the computed polynomial is stored only in the biconnected
(delete-contract) branch. -/
def chromatic (th : Nat) (tmo : Int) (g : CShape) (mid : Nat) (st : EngSt) :
    FPoly × EngSt :=
  if tmo ≤ 0 then (polyX 0, st) else
  let st1 := { st with numSteps := st.numSteps + 1 }
  let v := g.view
  let kc := decide (th ≤ v.numVerts)
  match (if kc then scLookup v.key st1.cache else none) with
  | some (r, _) => (r, bumpHitSize v.numVerts st1)
  | none =>
    match g with
    | .dec _ skel comps =>
      let tid := st1.treeId
      let stA := { st1 with treeId := st1.treeId + comps.length }
      let stB := if skel.skelIsMultitree then { stA with numTrees := stA.numTrees + 1 } else stA
      let stC := if 1 < comps.length then
          { stB with numDisbicomps := stB.numDisbicomps + 1 } else stB
      chromComps th tmo comps tid (polyX skel.skelNumEdges) stC
    | .dc _ del con =>
      let lid := st1.treeId
      let rid := st1.treeId + 1
      let stA := { st1 with treeId := st1.treeId + 2 }
      let rd := chromatic th tmo del lid stA
      let rc := chromatic th tmo con rid rd.2
      let poly := polyAdd rd.1 rc.1
      (poly, if kc then { rc.2 with cache := scStore v.key poly mid rc.2.cache } else rc.2)
termination_by structural g

/-- Loop over the extracted biconnected components of a chromatic frame:
every component is recursed on. -/
def chromComps (th : Nat) (tmo : Int) (gs : CShapes) (tid : Nat) (acc : FPoly)
    (st : EngSt) : FPoly × EngSt :=
  match gs with
  | .nil => (acc, st)
  | .cons c rest =>
    let stA := { st with numBicomps := st.numBicomps + 1 }
    let r := chromatic th tmo c tid stA
    chromComps th tmo rest (tid + 1) (polyMul acc r.1) r.2
termination_by structural gs
end

/-!
Model of the content-addressable cache of src/tuttex/cache.hpp.

Two complementary views are used, matching the two layers of the data
structure.  The bucket view (CacheSt) models the bucket array of
doubly-linked entry lists together with the statistics counters, and is
the state on which lookup, clear and reset_stats act.  The arena view
(ArenaSt) models the byte arena as the ordered sequence of allocated
nodes, each live (linked into some bucket) or free (unlinked, next and
prev both null), and is the state on which eviction, compaction and
allocation act.  Key bytes are opaque; the collaborators hash_graph_key,
compare_graph_keys (bytewise equality) and graph_size live outside the
analysed sources, so the hash is a parameter and the vertex count of an
entry's graph is carried as a field.
-/

/-- A cache entry as seen from its bucket: the stored key bytes, the
serialized polynomial bytes, the graph id and the hit counter. -/
structure CEntry where
  key : List Nat
  pdata : List Nat
  graphId : Nat
  hitCount : Nat
deriving DecidableEq, Repr

/-- Bucket-level cache state: the bucket array (each bucket the list of
its entries in list order, front first), the statistics counters, the
entry counter and the arena frontier offset next_p minus start_p. -/
structure CacheSt where
  buckets : List (List CEntry)
  hits : Nat
  misses : Nat
  collisions : Nat
  numentries : Nat
  nextpOff : Nat
deriving DecidableEq, Repr

namespace cache

/-- Walk of one bucket list looking for a bytewise key match, returning
the first matching entry, the number of non-matching entries passed over
(each of which increments the collision counter), and the bucket with the
matching entry removed. -/
def walkBucket (key : List Nat) : List CEntry → Option (CEntry × Nat × List CEntry)
  | [] => none
  | e :: rest =>
    if e.key = key then some (e, 0, rest)
    else
      match walkBucket key rest with
      | some (m, c, rest2) => some (m, c + 1, e :: rest2)
      | none => none

/-- Shallow embedding of cache::lookup (src/tuttex/cache.hpp, lines
298-331).  The key hashes to bucket hash(key) mod nbuckets; the bucket is
walked comparing stored keys bytewise; on a match the entry's hit counter
is incremented, the entry moves to the front of its bucket, the stored
polynomial bytes and graph id are returned and the hit counter of the
cache is incremented; on exhaustion the miss counter is incremented.  The
deserializer is a collaborator outside the analysed sources, so the
output carries the stored byte image. -/
def lookup (hash : List Nat → Nat) (key : List Nat) (st : CacheSt) :
    Option (List Nat × Nat) × CacheSt :=
  let b := hash key % st.buckets.length
  let bl := st.buckets.getD b []
  match walkBucket key bl with
  | some (m, c, rest) =>
    (some (m.pdata, m.graphId),
     { st with
        buckets := st.buckets.set b ({ m with hitCount := m.hitCount + 1 } :: rest),
        hits := st.hits + 1,
        collisions := st.collisions + c })
  | none =>
    (none, { st with misses := st.misses + 1, collisions := st.collisions + bl.length })

/-- Shallow embedding of cache::clear (src/tuttex/cache.hpp, lines
190-201): the next pointer is reset to the buffer start and every
bucket's links are nulled; nothing else is touched. -/
def clear (st : CacheSt) : CacheSt :=
  { st with nextpOff := 0, buckets := st.buckets.map (fun _ => []) }

/-- Shallow embedding of cache::reset_stats (src/tuttex/cache.hpp, lines
203-208): hits, misses and collisions are zeroed; nothing else is
touched. -/
def reset_stats (st : CacheSt) : CacheSt :=
  { st with hits := 0, misses := 0, collisions := 0 }

/-- Shallow embedding of cache::num_entries. -/
def num_entries (st : CacheSt) : Nat := st.numentries

/-- Shallow embedding of cache::size, the used arena bytes next_p minus
start_p. -/
def size (st : CacheSt) : Nat := st.nextpOff

end cache

/-- An allocated node of the arena in the arena view: hit counter, vertex
count of the keyed graph (the graph_size collaborator applied to the
stored key), total byte size of the node including its header, and
whether the node is live (linked into a bucket) or free (next and prev
null). -/
structure Slot where
  hitCount : Nat
  nverts : Nat
  bytes : Nat
  live : Bool
deriving DecidableEq, Repr

/-- Arena-level cache state: the allocated nodes in address order, the
frontier offset next_p minus start_p, the arena capacity, the replacement
ratio, the pin threshold min_replace_size and the entry counter. -/
structure ArenaSt where
  slots : List Slot
  nextp : Nat
  bufsize : Nat
  repl : ℚ
  minReplaceSize : Nat
  numentries : Nat
deriving DecidableEq, Repr

namespace cache

/-- Condition under which one eviction pass at threshold hc removes a
node (cache.hpp line 462): the node is still linked, its hit count is
below the threshold and its graph is smaller than min_replace_size. -/
def evictable (hc minrep : Nat) (s : Slot) : Bool :=
  s.live && decide (s.hitCount < hc) && decide (s.nverts < minrep)

/-- Unlinking a node from its bucket (cache::remove_node): the node stays
in the arena but becomes free. -/
def kill (s : Slot) : Slot := { s with live := false }

/-- One eviction pass at threshold hc over the arena. -/
def evictPass (hc minrep : Nat) (slots : List Slot) : List Slot :=
  slots.map (fun s => if evictable hc minrep s then kill s else s)

/-- Bytes freed by one eviction pass at threshold hc. -/
def passAmount (hc minrep : Nat) : List Slot → Nat
  | [] => 0
  | s :: rest =>
    (if evictable hc minrep s then s.bytes else 0) + passAmount hc minrep rest

/-- Shallow embedding of cache::remove_unused_nodes (src/tuttex/cache.hpp,
lines 442-472).  The do-while loop raises the threshold hc by one each
pass, frees every linked node whose hit count is below hc and whose graph
is not pinned, and repeats while amount divided by orig_size stays below
the replacement ratio.  The iteration over buckets is flattened to the
iteration over live arena nodes it visits; the floating-point comparison
amount / orig_size < p is encoded without division, as the cross
multiplication amount times den p below num p times orig_size, which for
the positive denominator of p says exactly amount / orig_size < p (for
orig_size zero the C division yields NaN or infinity and the comparison
is false, hence the conjunct zero-less-than-origSize).  The loop has no
intrinsic bound, so fuel makes it total; none means the fuel ran out.
The decrement of the entry counter is carried by the caller of the
model. -/
def remove_unused_nodes (minrep : Nat) (p : ℚ) (origSize : Nat) :
    Nat → Nat → Nat → List Slot → Option (List Slot × Nat × Nat)
  | 0, _, _, _ => none
  | fuel + 1, hc, amount, slots =>
    let hc2 := hc + 1
    let amount2 := amount + passAmount hc2 minrep slots
    let slots2 := evictPass hc2 minrep slots
    if 0 < origSize ∧ (amount2 : Int) * (p.den : Int) < p.num * (origSize : Int) then
      remove_unused_nodes minrep p origSize fuel hc2 amount2 slots2
    else some (slots2, amount2, hc2)

/-- Traversal core of cache::pack_buffer (src/tuttex/cache.hpp, lines
474-500): addr is the address of the node at hand, diff the bytes of free
nodes seen so far.  A free node adds its size to diff and disappears; a
live node is moved down to destination addr minus diff (cache::move_node
updates the bucket links of the moved node and memmoves its bytes).  The
result is the final diff and the surviving nodes with their destination
offsets. -/
def packGo (addr diff : Nat) : List Slot → Nat × List (Nat × Slot)
  | [] => (diff, [])
  | s :: rest =>
    if s.live then
      let r := packGo (addr + s.bytes) diff rest
      (r.1, (addr - diff, s) :: r.2)
    else packGo (addr + s.bytes) (diff + s.bytes) rest

/-- Shallow embedding of cache::pack_buffer: a single left-to-right pass
over the arena starting at offset zero with no holes yet seen; the caller
lowers next_p by the returned diff. -/
def pack_buffer (slots : List Slot) : Nat × List (Nat × Slot) := packGo 0 0 slots

/-- One round of the space-reclamation loop inside cache::alloc_node with
the default usage-aware policy (random_replacement false):
remove_unused_nodes with orig_size captured as the current usage, then
pack_buffer, with next_p lowered by the compaction diff. -/
def stepEP (efuel : Nat) (st : ArenaSt) : Option ArenaSt :=
  match remove_unused_nodes st.minReplaceSize st.repl st.nextp efuel 0 0 st.slots with
  | none => none
  | some (slots2, _, _) =>
    let pk := pack_buffer slots2
    some { st with slots := pk.2.map Prod.snd, nextp := st.nextp - pk.1 }

/-- Reclamation loop of cache::alloc_node: while the requested size does
not fit between next_p and the end of the arena (the comparison is
greater-or-equal), evict then compact.  Fuel bounds the loop, which the C
code does not bound; none means the fuel ran out. -/
def allocGo (efuel size : Nat) : Nat → ArenaSt → Option (Nat × ArenaSt)
  | 0, _ => none
  | fuel + 1, st =>
    if st.bufsize ≤ st.nextp + size then
      match stepEP efuel st with
      | none => none
      | some st2 => allocGo efuel size fuel st2
    else some (st.nextp, { st with nextp := st.nextp + size })

/-- Shallow embedding of cache::alloc_node (src/tuttex/cache.hpp, lines
374-398): a request of at least the whole arena capacity throws bad_alloc
(the error case), otherwise the reclamation loop runs and the node is
placed at the frontier, advancing next_p. -/
def alloc_node (efuel lfuel size : Nat) (st : ArenaSt) :
    Option (Except Unit (Nat × ArenaSt)) :=
  if st.bufsize ≤ size then some (.error ())
  else
    match allocGo efuel size lfuel st with
    | none => none
    | some r => some (.ok r)

/-- Shallow embedding of cache::store (src/tuttex/cache.hpp, lines
333-362) at the arena level: the entry byte size is header plus key plus
serialized polynomial and arrives here precomputed in the slot; store
allocates through alloc_node, appends the node at the frontier with hit
count zero and linked live into its bucket, and increments the entry
counter. -/
def store (efuel lfuel : Nat) (e : Slot) (st : ArenaSt) :
    Option (Except Unit ArenaSt) :=
  match alloc_node efuel lfuel e.bytes st with
  | none => none
  | some (.error _) => some (.error ())
  | some (.ok (_off, st2)) =>
    some (.ok { st2 with
                  slots := st2.slots ++ [{ e with hitCount := 0, live := true }],
                  numentries := st2.numentries + 1 })

end cache

/-!
Specification-side vocabulary used by the theorems: cumulative effect of
the eviction passes, byte accounting of the arena, offsets of a
contiguous layout, and the chain of reclamation rounds of alloc_node.
-/

/-- Bytes occupied by free (unlinked) nodes of the arena. -/
def freeBytes : List Slot → Nat
  | [] => 0
  | s :: rest => (if s.live then 0 else s.bytes) + freeBytes rest

/-- Bytes occupied by all nodes of the arena. -/
def totalBytes : List Slot → Nat
  | [] => 0
  | s :: rest => s.bytes + totalBytes rest

/-- Offsets of the nodes of a contiguously packed arena starting at
offset zero: each node starts where the previous one ends. -/
def offsetsOf : List Slot → List Nat
  | [] => []
  | s :: rest => 0 :: (offsetsOf rest).map (fun x => x + s.bytes)

/-- Cumulative effect on the arena of the eviction passes with thresholds
one up to h: a node is unlinked exactly when its hit count is below h and
its graph is not pinned. -/
def cumEvict (h minrep : Nat) (slots : List Slot) : List Slot :=
  slots.map (fun s => if s.hitCount < h ∧ s.nverts < minrep then cache.kill s else s)

/-- Total bytes freed by the eviction passes with thresholds one up to h:
the sizes of the nodes that were live and are unlinked by threshold h. -/
def cumAmount (h minrep : Nat) : List Slot → Nat
  | [] => 0
  | s :: rest =>
    (if s.live = true ∧ s.hitCount < h ∧ s.nverts < minrep then s.bytes else 0) +
      cumAmount h minrep rest

/-- Chain of eviction-plus-compaction rounds taken by alloc_node: each
round runs only from a state where the request does not fit between the
frontier and the end of the arena. -/
def epReaches (efuel size : Nat) : ArenaSt → ArenaSt → Prop :=
  Relation.ReflTransGen
    (fun a b => a.bufsize ≤ a.nextp + size ∧ cache.stepEP efuel a = some b)

/-!
Concrete fixtures used by the closed theorems: a trivial collaborator
bundle, small engine states and shapes, and small cache states.
-/

/-- Trivial collaborator bundle for closed instances. -/
def cbId : Collab := ⟨fun p _ => p, fun p _ => p⟩

/-- Sample canonical key bytes. -/
def keyA : List Nat := [9, 9]

/-- Engine state with an empty memo cache. -/
def stEmpty : EngSt := ⟨[], 2, 0, 0, 0, 0, 0, fun _ => 0⟩

/-- Engine state whose memo cache already holds keyA. -/
def stPrimed : EngSt := ⟨[(keyA, polyX 2, 3)], 2, 0, 0, 0, 0, 0, fun _ => 0⟩

/-- Five-vertex multicycle frame whose probe hits when the cache holds
keyA. -/
def gHitT : TShape := .cyc ⟨5, 0, false, keyA⟩ 0

/-- Five-vertex non-biconnected chromatic frame with no extracted
components. -/
def gHitC : CShape := .dec ⟨5, keyA⟩ ⟨0, [], true, 0⟩ .nil

/-- Five-vertex non-biconnected chromatic frame with one biconnected
component of three vertices, below the probe threshold. -/
def gC1cex : CShape :=
  .dec ⟨5, keyA⟩ ⟨0, [], true, 0⟩
    (.cons (.dc ⟨3, [7]⟩ (.dec ⟨2, [8]⟩ ⟨1, [1], true, 1⟩ .nil)
                         (.dec ⟨2, [6]⟩ ⟨2, [], true, 0⟩ .nil)) .nil)

/-- Five-vertex view with no loops, not a multitree. -/
def vA : TView := ⟨5, 0, false, keyA⟩

/-- Skeleton with one remaining edge of multiplicity one. -/
def skelKill : SkelInfo := ⟨0, [1], true, 1⟩

/-- Two-vertex chromatic leaf below the probe threshold. -/
def cLeaf : CShape := .dec ⟨2, [4]⟩ ⟨0, [], true, 0⟩ .nil

/-- Four-vertex multicycle reached by the delete branch. -/
def gDelB : TShape := .cyc ⟨4, 0, false, [5]⟩ 1

/-- Four-vertex multicycle reached by the contract branch. -/
def gConB : TShape := .cyc ⟨4, 1, false, [6]⟩ 2

/-- Entry sitting in front of the matching one in its bucket. -/
def entB : CEntry := ⟨[1, 2], [10], 4, 0⟩

/-- Entry that matches the looked-up key. -/
def entM : CEntry := ⟨[3, 4], [11, 12], 5, 7⟩

/-- Bucket-level cache state with two buckets, the second holding entB
then entM. -/
def stCB : CacheSt := ⟨[[], [entB, entM]], 2, 3, 4, 6, 50⟩

/-- Hash sending every key to bucket one. -/
def hashOdd : List Nat → Nat := fun _ => 1

/-- Arena with two holes between three live nodes. -/
def slotsW : List Slot :=
  [⟨0, 3, 10, true⟩, ⟨1, 4, 7, false⟩, ⟨2, 7, 20, true⟩, ⟨0, 3, 5, false⟩, ⟨1, 3, 30, true⟩]

/-- Arena before a usage-aware eviction. -/
def slotsE : List Slot :=
  [⟨0, 3, 10, true⟩, ⟨2, 7, 20, true⟩, ⟨1, 3, 30, true⟩, ⟨0, 3, 5, false⟩]

/-- Arena slotsE after the eviction passes with thresholds one and two. -/
def slotsE2 : List Slot :=
  [⟨0, 3, 10, false⟩, ⟨2, 7, 20, true⟩, ⟨1, 3, 30, false⟩, ⟨0, 3, 5, false⟩]

/-- Replacement ratio one half, written out so that its numerator and
denominator are literals. -/
def ratioHalf : ℚ := ⟨1, 2, by decide, by decide⟩

/-- Arena state whose capacity equals the size of the entry eOom. -/
def stOom : ArenaSt := ⟨[], 0, 10, ratioHalf, 1000, 0⟩

/-- Entry whose byte size is exactly the arena capacity of stOom. -/
def eOom : Slot := ⟨0, 3, 10, true⟩

/-- Nearly full arena state: one cold node of forty-five bytes in a
fifty-byte arena. -/
def stNearFull : ArenaSt := ⟨[⟨0, 3, 45, true⟩], 45, 50, ratioHalf, 1000, 1⟩

/-- Ten-byte entry stored into stNearFull. -/
def eNew : Slot := ⟨7, 4, 10, false⟩

/-- Arena state after storing eNew into stNearFull: the cold node was
evicted, the arena compacted, and the new node appended at offset
zero. -/
def stAfterStore : ArenaSt := ⟨[⟨0, 4, 10, true⟩], 10, 50, ratioHalf, 1000, 2⟩

/-!
Theorems.  Helper lemmas come first, then one theorem per claim, each
with its witness or counterexample.
-/

/-- Looking a key up immediately after storing it returns the stored
polynomial and id. -/
theorem scLookup_scStore (key : List Nat) (p : FPoly) (id : Nat) (c : SCache) :
    scLookup key (scStore key p id c) = some (p, id) := by
  simp [scLookup, scStore, List.find?]

/-- Walking a bucket whose first bytewise match is m returns m, the
number of entries passed over, and the bucket with m removed. -/
theorem walkBucket_of_first_match (key : List Nat) (pre : List CEntry) (m : CEntry)
    (post : List CEntry) (hpre : ∀ e ∈ pre, e.key ≠ key) (hm : m.key = key) :
    cache.walkBucket key (pre ++ m :: post) = some (m, pre.length, pre ++ post) := by
  induction pre with
  | nil => simp [cache.walkBucket, hm]
  | cons e es ih =>
    have hne : e.key ≠ key := hpre e (by simp)
    have ih2 := ih (fun x hx => hpre x (by simp [hx]))
    rw [List.cons_append]
    simp only [cache.walkBucket, if_neg hne]
    rw [ih2]
    simp

/-- Walking a bucket with no bytewise match returns none. -/
theorem walkBucket_of_no_match (key : List Nat) (bl : List CEntry)
    (h : ∀ e ∈ bl, e.key ≠ key) :
    cache.walkBucket key bl = none := by
  induction bl with
  | nil => rfl
  | cons e es ih =>
    have hne : e.key ≠ key := h e (by simp)
    simp only [cache.walkBucket, if_neg hne, ih (fun x hx => h x (by simp [hx]))]

/-- Claim C10: cache clear resets the arena frontier to the buffer start,
so size returns zero, and nulls the links of every bucket, but leaves the
entry counter unchanged; reset_stats zeroes only hits, misses and
collisions, leaving the entry counter, the buckets and the frontier
untouched. -/
theorem clear_resets_arena_not_numentries (st : CacheSt) :
    cache.size (cache.clear st) = 0 ∧
    ((cache.clear st).buckets.all List.isEmpty) = true ∧
    cache.num_entries (cache.clear st) = cache.num_entries st ∧
    (cache.reset_stats st).hits = 0 ∧
    (cache.reset_stats st).misses = 0 ∧
    (cache.reset_stats st).collisions = 0 ∧
    cache.num_entries (cache.reset_stats st) = cache.num_entries st ∧
    (cache.reset_stats st).buckets = st.buckets ∧
    (cache.reset_stats st).nextpOff = st.nextpOff := by
  refine ⟨rfl, ?_, rfl, rfl, rfl, rfl, rfl, rfl, rfl⟩
  simp [cache.clear, List.all_eq_true]

/-- Claim C5: once the cooperative timeout counter has reached zero,
every pending tutte, flow and chromatic frame immediately returns the
sentinel polynomial X(0), leaving the whole engine state, in particular
the graph shape bookkeeping and the cache, untouched, so the recursion
unwinds to the driver. -/
theorem timeout_unwinds (cb : Collab) (th : Nat) (tmo : Int) (g : TShape) (gc : CShape)
    (mid : Nat) (st : EngSt) (h : tmo ≤ 0) :
    tutte cb th tmo g mid st = (polyX 0, st) ∧
    flow cb th tmo g mid st = (polyX 0, st) ∧
    chromatic th tmo gc mid st = (polyX 0, st) := by
  refine ⟨?_, ?_, ?_⟩
  · cases g <;> simp [tutte, h]
  · cases g <;> simp [flow, h]
  · cases gc <;> simp [chromatic, h]

/-- Witness for claim C5 at a concrete timed-out state. -/
theorem timeout_unwinds_wit :
    tutte cbId 5 0 gHitT 1 stEmpty = (polyX 0, stEmpty) ∧
    flow cbId 5 0 gHitT 1 stEmpty = (polyX 0, stEmpty) ∧
    chromatic 5 0 gHitC 1 stEmpty = (polyX 0, stEmpty) :=
  timeout_unwinds cbId 5 0 gHitT gHitC 1 stEmpty (by decide)

set_option maxHeartbeats 1000000 in
/-- Claim C9, evaluation at the failing input: on a cache hit for a
five-vertex graph, the tutte reducer increments cache_hit_sizes at index
six, one past the vertex count, while the flow and chromatic reducers
increment index five as the specification states for all modes. -/
theorem tutte_hit_index_off_by_one :
    (tutte cbId 5 100 gHitT 1 stPrimed).2.hitSizes 6 = stPrimed.hitSizes 6 + 1 ∧
    (tutte cbId 5 100 gHitT 1 stPrimed).2.hitSizes 5 = stPrimed.hitSizes 5 ∧
    (flow cbId 5 100 gHitT 1 stPrimed).2.hitSizes 5 = stPrimed.hitSizes 5 + 1 ∧
    (flow cbId 5 100 gHitT 1 stPrimed).2.hitSizes 6 = stPrimed.hitSizes 6 ∧
    (chromatic 5 100 gHitC 1 stPrimed).2.hitSizes 5 = stPrimed.hitSizes 5 + 1 := by
  refine ⟨by decide, by decide, by decide, by decide, by decide⟩

/-- Claim C4: in flow mode, when a frame whose cache probe missed or was
skipped decomposes a non-biconnected graph and the remaining
tree-skeleton contains an edge of multiplicity one, the frame returns
the empty polynomial P() for the whole graph. -/
theorem flow_tree_kills (cb : Collab) (th : Nat) (tmo : Int) (v : TView) (skel : SkelInfo)
    (comps : TShapes) (mid : Nat) (st : EngSt)
    (ht : 0 < tmo)
    (hm : probeT th v = true → scLookup v.key st.cache = none)
    (hk : skel.skelMults.contains 1 = true) :
    (flow cb th tmo (.dec v skel comps) mid st).1 = FPoly.zero := by
  have hk2 : 1 ∈ skel.skelMults := by simpa using hk
  by_cases hp : probeT th v = true
  · simp [flow, show ¬ tmo ≤ 0 by omega, hp, hm hp, hk2, TShape.view]
  · simp [flow, show ¬ tmo ≤ 0 by omega, TShape.view, hp, hk2]

/-- Witness for claim C4 at a concrete skeleton with a multiplicity-one
edge. -/
theorem flow_tree_kills_wit :
    (flow cbId 5 100 (.dec vA skelKill .nil) 1 stEmpty).1 = FPoly.zero :=
  flow_tree_kills cbId 5 100 vA skelKill .nil 1 stEmpty (by decide) (fun _ => rfl) (by decide)

/-- Claim C3: in tutte and flow mode, a delete-contract frame whose probe
missed or was skipped combines the two branch results as delete plus
contract times Y(0, k-1) when the selected edge multiplicity k exceeds
one, and as the plain sum otherwise; the frame then multiplies by the
loop factor Y(loops). -/
theorem dc_multiedge_expansion (cb : Collab) (th : Nat) (tmo : Int) (v : TView) (k : Nat)
    (del con : TShape) (mid : Nat) (st : EngSt)
    (ht : 0 < tmo)
    (hm : probeT th v = true → scLookup v.key st.cache = none) :
    ((tutte cb th tmo (.dc v k del con) mid st).1 =
      (let stA := { st with
                    numSteps := st.numSteps + 1
                    treeId := st.treeId + 2 }
       let rd := tutte cb th tmo del st.treeId stA
       let rc := tutte cb th tmo con (st.treeId + 1) rd.2
       polyMul (if 1 < k then polyAdd rd.1 (polyMul rc.1 (polyYr 0 (k - 1)))
                else polyAdd rd.1 rc.1) (polyY v.loops))) ∧
    ((flow cb th tmo (.dc v k del con) mid st).1 =
      (let stA := { st with
                    numSteps := st.numSteps + 1
                    treeId := st.treeId + 2 }
       let rd := flow cb th tmo del st.treeId stA
       let rc := flow cb th tmo con (st.treeId + 1) rd.2
       polyMul (if 1 < k then polyAdd rd.1 (polyMul rc.1 (polyYr 0 (k - 1)))
                else polyAdd rd.1 rc.1) (polyY v.loops))) := by
  constructor
  · rw [tutte.eq_def]
    by_cases hp : probeT th v = true
    · simp only [if_neg (show ¬ tmo ≤ 0 by omega), hp, if_true, hm hp, TShape.view]
    · simp [if_neg (show ¬ tmo ≤ 0 by omega), hp, TShape.view]
  · rw [flow.eq_def]
    by_cases hp : probeT th v = true
    · simp only [if_neg (show ¬ tmo ≤ 0 by omega), hp, if_true, hm hp, TShape.view]
    · simp [if_neg (show ¬ tmo ≤ 0 by omega), hp, TShape.view]

/-- Witness for claim C3 at a concrete frame with edge multiplicity
three. -/
theorem dc_multiedge_expansion_wit :
    ((tutte cbId 5 100 (.dc vA 3 gDelB gConB) 1 stEmpty).1 =
      (let stA := { stEmpty with
                    numSteps := stEmpty.numSteps + 1
                    treeId := stEmpty.treeId + 2 }
       let rd := tutte cbId 5 100 gDelB stEmpty.treeId stA
       let rc := tutte cbId 5 100 gConB (stEmpty.treeId + 1) rd.2
       polyMul (if 1 < 3 then polyAdd rd.1 (polyMul rc.1 (polyYr 0 (3 - 1)))
                else polyAdd rd.1 rc.1) (polyY vA.loops))) ∧
    ((flow cbId 5 100 (.dc vA 3 gDelB gConB) 1 stEmpty).1 =
      (let stA := { stEmpty with
                    numSteps := stEmpty.numSteps + 1
                    treeId := stEmpty.treeId + 2 }
       let rd := flow cbId 5 100 gDelB stEmpty.treeId stA
       let rc := flow cbId 5 100 gConB (stEmpty.treeId + 1) rd.2
       polyMul (if 1 < 3 then polyAdd rd.1 (polyMul rc.1 (polyYr 0 (3 - 1)))
                else polyAdd rd.1 rc.1) (polyY vA.loops))) :=
  dc_multiedge_expansion cbId 5 100 vA 3 gDelB gConB 1 stEmpty (by decide) (fun _ => rfl)

/-- Claim C1 (amended): whenever a frame computed the canonical key and
the probe missed, the tutte reducer stores the computed polynomial under
that key with the frame id before returning; the flow reducer does the
same except on the tree-kills-branch early return, where it leaves the
cache entirely untouched; the chromatic reducer stores only in the
biconnected (delete-contract) branch. -/
theorem store_on_return_modes :
    (∀ (cb : Collab) (th : Nat) (tmo : Int) (g : TShape) (mid : Nat) (st : EngSt),
      0 < tmo → probeT th g.view = true → scLookup g.view.key st.cache = none →
      ∃ q, scLookup g.view.key (tutte cb th tmo g mid st).2.cache = some (q, mid) ∧
        (tutte cb th tmo g mid st).1 = polyMul q (polyY g.view.loops)) ∧
    (∀ (cb : Collab) (th : Nat) (tmo : Int) (g : TShape) (mid : Nat) (st : EngSt),
      0 < tmo → flowKills g = false → probeT th g.view = true →
      scLookup g.view.key st.cache = none →
      ∃ q, scLookup g.view.key (flow cb th tmo g mid st).2.cache = some (q, mid) ∧
        (flow cb th tmo g mid st).1 = polyMul q (polyY g.view.loops)) ∧
    (∀ (cb : Collab) (th : Nat) (tmo : Int) (v : TView) (skel : SkelInfo) (comps : TShapes)
      (mid : Nat) (st : EngSt),
      0 < tmo → skel.skelMults.contains 1 = true →
      (probeT th v = true → scLookup v.key st.cache = none) →
      (flow cb th tmo (.dec v skel comps) mid st).2.cache = st.cache) ∧
    (∀ (th : Nat) (tmo : Int) (v : CView) (del con : CShape) (mid : Nat) (st : EngSt),
      0 < tmo → th ≤ v.numVerts → scLookup v.key st.cache = none →
      ∃ q, scLookup v.key (chromatic th tmo (.dc v del con) mid st).2.cache = some (q, mid) ∧
        (chromatic th tmo (.dc v del con) mid st).1 = q) := by
  refine ⟨?_, ?_, ?_, ?_⟩
  · intro cb th tmo g mid st ht hp hm
    rw [tutte.eq_def]
    simp only [if_neg (show ¬ tmo ≤ 0 by omega), hp, if_true, hm]
    exact ⟨_, scLookup_scStore _ _ _ _, rfl⟩
  · intro cb th tmo g mid st ht hnk hp hm
    rw [flow.eq_def]
    cases g with
    | cyc v gid =>
      simp only [TShape.view] at hp hm
      simp only [if_neg (show ¬ tmo ≤ 0 by omega), TShape.view, hp, if_true, hm]
      exact ⟨_, scLookup_scStore _ _ _ _, rfl⟩
    | dec v skel comps =>
      have hnk2 : skel.skelMults.contains 1 = false := by simpa [flowKills] using hnk
      simp only [TShape.view] at hp hm
      simp only [if_neg (show ¬ tmo ≤ 0 by omega), TShape.view, hp, if_true, hm, hnk2,
        Bool.false_eq_true, if_false]
      exact ⟨_, scLookup_scStore _ _ _ _, rfl⟩
    | dc v k del con =>
      simp only [TShape.view] at hp hm
      simp only [if_neg (show ¬ tmo ≤ 0 by omega), TShape.view, hp, if_true, hm]
      exact ⟨_, scLookup_scStore _ _ _ _, rfl⟩
  · intro cb th tmo v skel comps mid st ht hk hm
    have hk2 : 1 ∈ skel.skelMults := by simpa using hk
    by_cases hp : probeT th v = true
    · simp [flow, show ¬ tmo ≤ 0 by omega, hp, hm hp, hk2, TShape.view]
    · simp [flow, show ¬ tmo ≤ 0 by omega, hp, hk2, TShape.view]
  · intro th tmo v del con mid st ht hp hm
    have hkc : decide (th ≤ v.numVerts) = true := by simpa using hp
    rw [chromatic.eq_def]
    simp only [if_neg (show ¬ tmo ≤ 0 by omega), CShape.view, hkc, if_true, hm]
    exact ⟨_, scLookup_scStore _ _ _ _, rfl⟩

set_option maxHeartbeats 2000000 in
/-- Counterexample to claim C1 as stated: a chromatic frame on a
five-vertex non-biconnected graph computes the canonical key (the probe
threshold is met), the probe misses on the empty cache, yet the frame
returns with the cache still empty, so nothing was stored under the
key. -/
theorem chromatic_dec_no_store_cex :
    5 ≤ (CShape.view gC1cex).numVerts ∧
    scLookup (CShape.view gC1cex).key stEmpty.cache = none ∧
    (chromatic 5 100 gC1cex 1 stEmpty).2.cache = [] :=
  ⟨by decide, by decide, by decide⟩

/-- Witness for claim C1 (amended) at concrete frames of each mode. -/
theorem store_on_return_modes_wit :
    (∃ q, scLookup (TShape.view gHitT).key (tutte cbId 5 100 gHitT 1 stEmpty).2.cache
        = some (q, 1) ∧
      (tutte cbId 5 100 gHitT 1 stEmpty).1 = polyMul q (polyY (TShape.view gHitT).loops)) ∧
    (∃ q, scLookup (TShape.view gHitT).key (flow cbId 5 100 gHitT 1 stEmpty).2.cache
        = some (q, 1) ∧
      (flow cbId 5 100 gHitT 1 stEmpty).1 = polyMul q (polyY (TShape.view gHitT).loops)) ∧
    (flow cbId 5 100 (TShape.dec vA skelKill .nil) 1 stEmpty).2.cache = stEmpty.cache ∧
    (∃ q, scLookup keyA (chromatic 5 100 (CShape.dc ⟨5, keyA⟩ cLeaf cLeaf) 1 stEmpty).2.cache
        = some (q, 1) ∧
      (chromatic 5 100 (CShape.dc ⟨5, keyA⟩ cLeaf cLeaf) 1 stEmpty).1 = q) :=
  ⟨store_on_return_modes.1 cbId 5 100 gHitT 1 stEmpty (by decide) (by decide) rfl,
   store_on_return_modes.2.1 cbId 5 100 gHitT 1 stEmpty (by decide) rfl (by decide) rfl,
   store_on_return_modes.2.2.1 cbId 5 100 vA skelKill .nil 1 stEmpty (by decide) (by decide)
     (fun _ => rfl),
   store_on_return_modes.2.2.2 5 100 ⟨5, keyA⟩ cLeaf cLeaf 1 stEmpty (by decide) (by decide) rfl⟩

/-- Claim C2: lookup hashes the key to bucket hash(key) mod nbuckets and
walks that bucket comparing stored keys bytewise.  On the first match it
increments that entry's hit counter by exactly one, moves the entry to
the front of its bucket keeping the others in order, returns the stored
polynomial image and graph id, and counts a hit plus one collision per
entry passed over; when no entry matches it counts a miss, one collision
per entry, and leaves the buckets unchanged. -/
theorem lookup_spec (hash : List Nat → Nat) (key : List Nat) (st : CacheSt) :
    (∀ (pre : List CEntry) (m : CEntry) (post : List CEntry),
      st.buckets.getD (hash key % st.buckets.length) [] = pre ++ m :: post →
      (∀ e ∈ pre, e.key ≠ key) → m.key = key →
      cache.lookup hash key st =
        (some (m.pdata, m.graphId),
         { st with
            buckets := st.buckets.set (hash key % st.buckets.length)
              ({ m with hitCount := m.hitCount + 1 } :: (pre ++ post)),
            hits := st.hits + 1,
            collisions := st.collisions + pre.length })) ∧
    ((∀ e ∈ st.buckets.getD (hash key % st.buckets.length) [], e.key ≠ key) →
      cache.lookup hash key st =
        (none,
         { st with
            misses := st.misses + 1,
            collisions := st.collisions +
              (st.buckets.getD (hash key % st.buckets.length) []).length })) := by
  constructor
  · intro pre m post hbl hpre hm
    simp only [cache.lookup]
    rw [hbl, walkBucket_of_first_match key pre m post hpre hm]
  · intro h
    simp only [cache.lookup]
    rw [walkBucket_of_no_match key _ h]

/-- Witness for claim C2: a hit behind one colliding entry and a miss on
the same bucket. -/
theorem lookup_spec_wit :
    cache.lookup hashOdd [3, 4] stCB =
      (some (entM.pdata, entM.graphId),
       { stCB with
          buckets := stCB.buckets.set 1 ({ entM with hitCount := entM.hitCount + 1 } :: [entB]),
          hits := stCB.hits + 1,
          collisions := stCB.collisions + 1 }) ∧
    cache.lookup hashOdd [9] stCB =
      (none, { stCB with misses := stCB.misses + 1, collisions := stCB.collisions + 2 }) := by
  constructor
  · have h := (lookup_spec hashOdd [3, 4] stCB).1 [entB] entM [] (by decide)
      (by decide) (by decide)
    simpa using h
  · have h := (lookup_spec hashOdd [9] stCB).2 (by decide)
    simpa using h

/-- One eviction pass at a higher threshold applied after the cumulative
passes up to a lower threshold unlinks exactly what the cumulative
passes up to the higher threshold unlink. -/
theorem evictPass_cumEvict (minrep : Nat) (hc hc2 : Nat) (hle : hc ≤ hc2)
    (slots : List Slot) :
    cache.evictPass hc2 minrep (cumEvict hc minrep slots) = cumEvict hc2 minrep slots := by
  induction slots with
  | nil => rfl
  | cons s rest ih =>
    simp only [cumEvict, List.map_cons, cache.evictPass] at ih ⊢
    rw [ih]
    congr 1
    rcases s with ⟨h0, n0, b0, l0⟩
    by_cases hc1 : h0 < hc ∧ n0 < minrep
    · have hcc : h0 < hc2 ∧ n0 < minrep := ⟨by omega, hc1.2⟩
      simp [hc1, hcc, cache.evictable, cache.kill]
    · by_cases hc2' : h0 < hc2 ∧ n0 < minrep
      · have hnc : ¬ h0 < hc := fun hh => hc1 ⟨hh, hc2'.2⟩
        cases l0 <;> simp [hc1, hc2', hnc, cache.evictable, cache.kill]
      · by_cases hn : n0 < minrep
        · have hh2 : ¬ h0 < hc2 := fun hh => hc2' ⟨hh, hn⟩
          have hh1 : ¬ h0 < hc := fun hh => hh2 (by omega)
          cases l0 <;> simp [hc1, hc2', hn, hh1, hh2, cache.evictable, cache.kill]
        · cases l0 <;> simp [hc1, hc2', hn, cache.evictable, cache.kill]

/-- Head contribution of one slot to the byte accounting of an eviction
pass at a higher threshold after the cumulative passes up to a lower
one. -/
theorem passAmount_head (minrep hc hc2 : Nat) (hle : hc ≤ hc2) (s : Slot) :
    (if s.live = true ∧ s.hitCount < hc ∧ s.nverts < minrep then s.bytes else 0) +
      (if cache.evictable hc2 minrep
            (if s.hitCount < hc ∧ s.nverts < minrep then cache.kill s else s) = true
        then (if s.hitCount < hc ∧ s.nverts < minrep then cache.kill s else s).bytes
        else 0) =
    (if s.live = true ∧ s.hitCount < hc2 ∧ s.nverts < minrep then s.bytes else 0) := by
  rcases s with ⟨h0, n0, b0, l0⟩
  by_cases hc1 : h0 < hc ∧ n0 < minrep
  · have hcc : h0 < hc2 ∧ n0 < minrep := ⟨by omega, hc1.2⟩
    cases l0 <;> simp [hc1, hcc, cache.evictable, cache.kill]
  · by_cases hn : n0 < minrep
    · by_cases hh2 : h0 < hc2
      · have hh1 : ¬ h0 < hc := fun hh => hc1 ⟨hh, hn⟩
        cases l0 <;> simp [hc1, hn, hh1, hh2, cache.evictable, cache.kill]
      · have hh1 : ¬ h0 < hc := fun hh => hh2 (by omega)
        cases l0 <;> simp [hc1, hn, hh1, hh2, cache.evictable, cache.kill]
    · cases l0 <;> simp [hc1, hn, cache.evictable, cache.kill]

/-- Byte accounting of one eviction pass at a higher threshold on top of
the cumulative amount of the passes up to a lower threshold. -/
theorem passAmount_cumEvict (minrep : Nat) (hc hc2 : Nat) (hle : hc ≤ hc2)
    (slots : List Slot) :
    cumAmount hc minrep slots + cache.passAmount hc2 minrep (cumEvict hc minrep slots) =
      cumAmount hc2 minrep slots := by
  induction slots with
  | nil => rfl
  | cons s rest ih =>
    have hd := passAmount_head minrep hc hc2 hle s
    simp only [cumEvict, List.map_cons, cache.passAmount, cumAmount] at ih ⊢
    omega

/-- Cumulative amount of zero passes is zero. -/
theorem cumAmount_zero (minrep : Nat) (slots : List Slot) :
    cumAmount 0 minrep slots = 0 := by
  induction slots with
  | nil => rfl
  | cons s rest ih => simp [cumAmount, ih]

/-- Cumulative effect of zero passes is the identity. -/
theorem cumEvict_zero (minrep : Nat) (slots : List Slot) :
    cumEvict 0 minrep slots = slots := by
  unfold cumEvict
  induction slots with
  | nil => rfl
  | cons s rest ih => simp [ih]

/-- Loop invariant of remove_unused_nodes: starting a partial run at
threshold hc with the matching cumulative state, a successful run ends
at the first threshold past hc whose cumulative amount reaches the
ratio, with the matching cumulative arena and amount. -/
theorem remove_unused_nodes_invariant (minrep : Nat) (p : ℚ) (orig : Nat)
    (slots0 : List Slot) :
    ∀ (fuel hc : Nat) (out : List Slot × Nat × Nat),
      cache.remove_unused_nodes minrep p orig fuel hc (cumAmount hc minrep slots0)
        (cumEvict hc minrep slots0) = some out →
      hc < out.2.2 ∧
      out.1 = cumEvict out.2.2 minrep slots0 ∧
      out.2.1 = cumAmount out.2.2 minrep slots0 ∧
      ¬(0 < orig ∧ (out.2.1 : Int) * (p.den : Int) < p.num * (orig : Int)) ∧
      (∀ j, hc < j → j < out.2.2 →
        0 < orig ∧ ((cumAmount j minrep slots0 : Int) * (p.den : Int) <
          p.num * (orig : Int))) := by
  intro fuel
  induction fuel with
  | zero => intro hc out h; exact absurd h (by simp [cache.remove_unused_nodes])
  | succ fuel ih =>
    intro hc out h
    rw [cache.remove_unused_nodes] at h
    rw [passAmount_cumEvict minrep hc (hc + 1) (by omega) slots0] at h
    rw [evictPass_cumEvict minrep hc (hc + 1) (by omega) slots0] at h
    by_cases hcond : 0 < orig ∧
        ((cumAmount (hc + 1) minrep slots0 : Int) * (p.den : Int) < p.num * (orig : Int))
    · rw [if_pos hcond] at h
      obtain ⟨h1, h2, h3, h4, h5⟩ := ih (hc + 1) out h
      refine ⟨by omega, h2, h3, h4, ?_⟩
      intro j hj1 hj2
      by_cases hje : j = hc + 1
      · exact hje ▸ hcond
      · exact h5 j (by omega) hj2
    · rw [if_neg hcond] at h
      obtain rfl : (cumEvict (hc + 1) minrep slots0, cumAmount (hc + 1) minrep slots0,
          hc + 1) = out := by simpa using h
      refine ⟨Nat.lt_succ_self hc, rfl, rfl, hcond, fun j hj1 hj2 => ?_⟩
      have hj3 : j < hc + 1 := hj2
      omega

/-- Bridge between the cross-multiplied integer comparison in the model
and the rational comparison amount below ratio times usage. -/
theorem ratio_cross_iff (p : ℚ) (a b : Nat) :
    ((a : Int) * (p.den : Int) < p.num * (b : Int)) ↔ ((a : ℚ) < p * (b : ℚ)) := by
  have hden : (0 : ℚ) < (p.den : ℚ) := by exact_mod_cast p.pos
  have key : p * (p.den : ℚ) = (p.num : ℚ) := by
    conv_lhs => lhs; rw [← Rat.num_div_den p]
    rw [div_mul_cancel₀]
    exact Nat.cast_ne_zero.mpr p.den_nz
  have h2 : ((a : ℚ) < p * (b : ℚ)) ↔ ((a : ℚ) * (p.den : ℚ) < (p.num : ℚ) * (b : ℚ)) := by
    rw [← mul_lt_mul_right hden, mul_right_comm, key]
  rw [h2]
  exact_mod_cast Iff.rfl

/-- Claim C7: a successful usage-aware eviction run ends at the first
threshold h such that the removed bytes reach the replacement ratio
times the usage captured at the start; exactly the unpinned entries with
hit count below h are unlinked, the pinned entries all survive, the
removed bytes are the sizes of the unlinked entries, and every earlier
threshold was still below the ratio. -/
theorem remove_unused_nodes_spec (minrep : Nat) (p : ℚ) (orig fuel : Nat)
    (slots slots2 : List Slot) (amount h : Nat)
    (hrun : cache.remove_unused_nodes minrep p orig fuel 0 0 slots =
      some (slots2, amount, h)) :
    0 < h ∧
    slots2 = slots.map
      (fun s => if s.hitCount < h ∧ s.nverts < minrep then cache.kill s else s) ∧
    amount = cumAmount h minrep slots ∧
    (∀ s ∈ slots, minrep ≤ s.nverts → s ∈ slots2) ∧
    (0 < orig → p * (orig : ℚ) ≤ (amount : ℚ)) ∧
    (∀ j, 0 < j → j < h →
      0 < orig ∧ ((cumAmount j minrep slots : ℚ) < p * (orig : ℚ))) := by
  have hstart : cache.remove_unused_nodes minrep p orig fuel 0
      (cumAmount 0 minrep slots) (cumEvict 0 minrep slots) = some (slots2, amount, h) := by
    rw [cumAmount_zero, cumEvict_zero]; exact hrun
  obtain ⟨h1, h2, h3, h4, h5⟩ :=
    remove_unused_nodes_invariant minrep p orig slots fuel 0 (slots2, amount, h) hstart
  dsimp only at h1 h2 h3 h4 h5
  refine ⟨h1, h2, h3, ?_, ?_, fun j hj1 hj2 => ?_⟩
  · intro s hs hpin
    rw [h2]
    refine List.mem_map.mpr ⟨s, hs, ?_⟩
    rw [if_neg (fun hb => absurd hb.2 (by omega))]
  · intro ho
    refine le_of_not_lt (fun hlt => h4 ⟨ho, ?_⟩)
    exact (ratio_cross_iff p amount orig).mpr hlt
  · obtain ⟨ho, hj⟩ := h5 j hj1 hj2
    exact ⟨ho, (ratio_cross_iff p (cumAmount j minrep slots) orig).mp hj⟩

/-- Witness for claim C7: with ratio one half and usage sixty-five, the
run stops after the second pass having removed forty bytes. -/
theorem remove_unused_nodes_spec_wit :
    0 < 2 ∧
    slotsE2 = slotsE.map
      (fun s => if s.hitCount < 2 ∧ s.nverts < 5 then cache.kill s else s) ∧
    40 = cumAmount 2 5 slotsE ∧
    (∀ s ∈ slotsE, 5 ≤ s.nverts → s ∈ slotsE2) ∧
    (0 < 65 → ratioHalf * ((65 : Nat) : ℚ) ≤ ((40 : Nat) : ℚ)) ∧
    (∀ j, 0 < j → j < 2 →
      0 < 65 ∧ ((cumAmount j 5 slotsE : ℚ) < ratioHalf * ((65 : Nat) : ℚ))) :=
  remove_unused_nodes_spec 5 ratioHalf 65 10 slotsE slotsE2 40 2 (by decide)

/-- Shift of mapped offsets: adding a block size before shifting by the
slide distance equals shifting after adding. -/
theorem map_add_shift (L : List Nat) (a b c : Nat) (h : c ≤ b) :
    L.map (fun x => x + (b + a - c)) = (L.map (fun x => x + a)).map (fun x => x + (b - c)) := by
  induction L with
  | nil => rfl
  | cons x xs ih => simp only [List.map_cons, ih]; congr 1; omega

/-- Traversal invariant of the compaction pass: starting at address addr
with diff bytes of holes already seen, the pass returns diff plus the
free bytes of the remaining arena, keeps exactly the live nodes in
order, and places them contiguously from offset addr minus diff. -/
theorem packGo_spec (slots : List Slot) : ∀ (addr diff : Nat), diff ≤ addr →
    (cache.packGo addr diff slots).1 = diff + freeBytes slots ∧
    (cache.packGo addr diff slots).2.map Prod.snd = slots.filter (fun s => s.live) ∧
    (cache.packGo addr diff slots).2.map Prod.fst =
      (offsetsOf (slots.filter (fun s => s.live))).map (fun x => x + (addr - diff)) := by
  induction slots with
  | nil => intro addr diff h; simp [cache.packGo, freeBytes, offsetsOf]
  | cons s rest ih =>
    intro addr diff h
    by_cases hl : s.live = true
    · obtain ⟨ih1, ih2, ih3⟩ := ih (addr + s.bytes) diff (by omega)
      refine ⟨?_, ?_, ?_⟩
      · simp only [cache.packGo, hl, if_true, freeBytes, ih1]
        omega
      · simp only [cache.packGo, hl, if_true, List.map_cons, List.filter_cons, ih2]
      · simp only [cache.packGo, hl, if_true, List.map_cons, List.filter_cons, ih3,
          offsetsOf, map_add_shift _ s.bytes addr diff h]
        simp
    · obtain ⟨ih1, ih2, ih3⟩ := ih (addr + s.bytes) (diff + s.bytes) (by omega)
      refine ⟨?_, ?_, ?_⟩
      · simp only [cache.packGo, hl, if_false, Bool.false_eq_true, freeBytes, ih1]
        omega
      · simp only [cache.packGo, hl, if_false, Bool.false_eq_true, List.filter_cons, ih2]
      · simp only [cache.packGo, hl, if_false, Bool.false_eq_true, List.filter_cons, ih3]
        have hdd : addr + s.bytes - (diff + s.bytes) = addr - diff := by omega
        rw [hdd]

/-- Splitting the arena bytes into live and free parts. -/
theorem totalBytes_split (slots : List Slot) :
    totalBytes slots = totalBytes (slots.filter (fun s => s.live)) + freeBytes slots := by
  induction slots with
  | nil => rfl
  | cons s rest ih =>
    by_cases hl : s.live = true <;>
      simp [totalBytes, freeBytes, List.filter_cons, hl, totalBytes, ih] <;> omega

/-- Claim C8: compaction is a single left-to-right pass keeping the live
entries in order, sliding each one down by the bytes of the freed
entries before it so that the survivors sit contiguously from offset
zero, and reporting as diff the total freed bytes; lowering the frontier
by diff leaves next_p minus the arena start equal to the sum of the live
entry sizes. -/
theorem pack_buffer_spec (slots : List Slot) (nextp : Nat)
    (hn : nextp = totalBytes slots) :
    (cache.pack_buffer slots).2.map Prod.snd = slots.filter (fun s => s.live) ∧
    (cache.pack_buffer slots).1 = freeBytes slots ∧
    (cache.pack_buffer slots).2.map Prod.fst = offsetsOf (slots.filter (fun s => s.live)) ∧
    nextp - (cache.pack_buffer slots).1 = totalBytes (slots.filter (fun s => s.live)) := by
  have h := packGo_spec slots 0 0 (le_refl 0)
  have ht := totalBytes_split slots
  refine ⟨h.2.1, by simpa using h.1, ?_, ?_⟩
  · have := h.2.2
    simpa using this
  · have h1 : (cache.pack_buffer slots).1 = freeBytes slots := by simpa using h.1
    omega

/-- Witness for claim C8 on an arena with two holes between three live
nodes. -/
theorem pack_buffer_spec_wit :
    (cache.pack_buffer slotsW).2.map Prod.snd = slotsW.filter (fun s => s.live) ∧
    (cache.pack_buffer slotsW).1 = freeBytes slotsW ∧
    (cache.pack_buffer slotsW).2.map Prod.fst = offsetsOf (slotsW.filter (fun s => s.live)) ∧
    72 - (cache.pack_buffer slotsW).1 = totalBytes (slotsW.filter (fun s => s.live)) :=
  pack_buffer_spec slotsW 72 (by decide)

/-- Every successful raw allocation is reached by a chain of
eviction-plus-compaction rounds, each taken only while the request did
not fit, ending in a state where it fits; the node is placed at that
frontier and the frontier advances by the requested size. -/
theorem allocGo_spec (efuel size : Nat) : ∀ (lfuel : Nat) (st : ArenaSt) (off : Nat)
    (st2 : ArenaSt), cache.allocGo efuel size lfuel st = some (off, st2) →
    ∃ stF, epReaches efuel size st stF ∧ stF.nextp + size < stF.bufsize ∧
      off = stF.nextp ∧ st2 = { stF with nextp := stF.nextp + size } := by
  intro lfuel
  induction lfuel with
  | zero => intro st off st2 h; exact absurd h (by simp [cache.allocGo])
  | succ lfuel ih =>
    intro st off st2 h
    rw [cache.allocGo] at h
    by_cases hfit : st.bufsize ≤ st.nextp + size
    · rw [if_pos hfit] at h
      cases hstep : cache.stepEP efuel st with
      | none => rw [hstep] at h; exact absurd h (by simp)
      | some stM =>
        rw [hstep] at h
        obtain ⟨stF, hr, hlt, ho, hs⟩ := ih stM off st2 h
        exact ⟨stF, Relation.ReflTransGen.head ⟨hfit, hstep⟩ hr, hlt, ho, hs⟩
    · rw [if_neg hfit] at h
      obtain ⟨ho, hs⟩ : off = st.nextp ∧ { st with nextp := st.nextp + size } = st2 := by
        simpa [eq_comm] using h
      exact ⟨st, Relation.ReflTransGen.refl, by omega, ho, hs.symm⟩

/-- Claim C6 (amended): a store whose entry size is at least the arena
capacity signals out-of-memory; otherwise a successful store reaches,
through eviction-then-compaction rounds taken only while the entry did
not fit between the frontier and the end of the arena, a state where it
fits, and appends the entry there with hit count zero, advancing the
frontier and the entry counter. -/
theorem store_capacity_spec (efuel lfuel : Nat) (e : Slot) (st : ArenaSt) :
    (st.bufsize ≤ e.bytes → cache.store efuel lfuel e st = some (.error ())) ∧
    (∀ st2, e.bytes < st.bufsize → cache.store efuel lfuel e st = some (.ok st2) →
      ∃ stF, epReaches efuel e.bytes st stF ∧ stF.nextp + e.bytes < stF.bufsize ∧
        st2 = { stF with
                  slots := stF.slots ++ [{ e with hitCount := 0, live := true }],
                  nextp := stF.nextp + e.bytes,
                  numentries := stF.numentries + 1 }) := by
  constructor
  · intro hbig
    simp [cache.store, cache.alloc_node, if_pos hbig]
  · intro st2 hsmall hok
    rw [cache.store, cache.alloc_node, if_neg (by omega)] at hok
    cases halloc : cache.allocGo efuel e.bytes lfuel st with
    | none => rw [halloc] at hok; exact absurd hok (by simp)
    | some r =>
      rw [halloc] at hok
      obtain ⟨stF, hr, hlt, ho, hs⟩ := allocGo_spec efuel e.bytes lfuel st r.1 r.2 (by
        rw [halloc])
      refine ⟨stF, hr, hlt, ?_⟩
      have : st2 = { r.2 with
                      slots := r.2.slots ++ [{ e with hitCount := 0, live := true }],
                      numentries := r.2.numentries + 1 } := by
        simpa [eq_comm] using hok
      rw [this, hs]

/-- Counterexample to claim C6 as stated: an entry whose byte size equals
the arena capacity exactly, so does not exceed it, is nevertheless
rejected with out-of-memory. -/
theorem store_oom_at_exact_capacity_cex :
    cache.store 4 4 eOom stOom = some (.error ()) ∧ eOom.bytes = stOom.bufsize :=
  ⟨rfl, rfl⟩

/-- Witness for claim C6 (amended): an oversized entry errors, and a
store into a nearly full arena evicts, compacts and appends at the new
frontier. -/
theorem store_capacity_spec_wit :
    cache.store 4 4 ⟨0, 3, 60, true⟩ stOom = some (.error ()) ∧
    (∃ stF, epReaches 4 eNew.bytes stNearFull stF ∧
      stF.nextp + eNew.bytes < stF.bufsize ∧
      stAfterStore = { stF with
                        slots := stF.slots ++ [{ eNew with hitCount := 0, live := true }],
                        nextp := stF.nextp + eNew.bytes,
                        numentries := stF.numentries + 1 }) :=
  ⟨(store_capacity_spec 4 4 ⟨0, 3, 60, true⟩ stOom).1 (by decide),
   (store_capacity_spec 4 4 eNew stNearFull).2 stAfterStore (by decide) rfl⟩
